import Mathlib

/-!
Verification of the streaming reasoning/answer tagger in
`src/phi/model/aliyun/aliyun.py` (`ALIChat.response_stream`).

The Python generator consumes a stream of `ChatCompletionChunk` fragments.
Each fragment either has an empty `choices` list (a pure usage/terminal
fragment, which only gets printed) or a first choice whose `delta` may carry
`reasoning_content` and/or `content` strings.  The generator threads a
`status` string (initially `""`, then `"think"`, then `"answer"`) and a
`StreamData` record, inserts the literal `"<think>"` before the first
non-empty reasoning text and `"</think>"` before the first non-empty answer
text seen while in the `"think"` status, and yields a `ModelResponse` for
every non-empty piece of text.

The embedding below takes the fragment list as input (the network call in
`invoke_stream` merely produces that list) and mirrors the loop body:
`reasonStep` is the first `if` block of the loop (reasoning content),
`answerStep` is the second (normal content), `processChunk` is one loop
iteration, and `run` is the whole loop, collecting yielded events in order.
-/

/-- `delta` of the first choice of a chunk: optional reasoning text and
optional answer text.  `none` models a missing attribute; Python's
truthiness test treats `None` and `""` alike, which `truthy` captures. -/
structure Delta where
  reasoning_content : Option String
  content : Option String
deriving DecidableEq

/-- One element of a chunk's `choices` list. -/
structure Choice where
  delta : Delta
deriving DecidableEq

/-- A streamed fragment: a (possibly empty) `choices` list and an opaque
usage payload (only ever printed by the source, never used). -/
structure ChatCompletionChunk where
  choices : List Choice
  usage : Option String
deriving DecidableEq

/-- An emitted output event; the source always constructs it with a
string `content`. -/
structure ModelResponse where
  content : String
deriving DecidableEq

/-- Mutable record threaded through the loop (`StreamData` in the source):
`response_content` accumulates answer text with `+=`, while
`response_reasoning_content` is overwritten by plain assignment. -/
structure StreamData where
  response_content : String
  response_reasoning_content : Option String
deriving DecidableEq

/-- Loop state: the `StreamData` record plus the `status` string, which the
source keeps as `""`, `"think"` or `"answer"`. -/
structure StreamState where
  stream_data : StreamData
  status : String
deriving DecidableEq

/-- State at loop entry: `StreamData()` defaults and `status = ""`. -/
def initState : StreamState := ⟨⟨"", none⟩, ""⟩

/-- Python truthiness of an optional string field guarded by `hasattr`:
true exactly when the field is present and non-empty. -/
def truthy (o : Option String) : Bool :=
  match o with
  | none => false
  | some s => !s.isEmpty

/-- First `if` block of the loop body: handle `reasoning_content`.  On the
first non-empty reasoning text (`status == ""`) the `"<think>"` marker is
prepended; the (possibly prefixed) text is stored by assignment into
`response_reasoning_content` and yielded. -/
def reasonStep (st : StreamState) (delta : Delta) : StreamState × List ModelResponse :=
  if truthy delta.reasoning_content then
    if st.status = "" then
      (⟨⟨st.stream_data.response_content, some ("<think>" ++ delta.reasoning_content.getD "")⟩,
        "think"⟩,
       [⟨"<think>" ++ delta.reasoning_content.getD ""⟩])
    else
      (⟨⟨st.stream_data.response_content, some (delta.reasoning_content.getD "")⟩, st.status⟩,
       [⟨delta.reasoning_content.getD ""⟩])
  else (st, [])

/-- Second `if` block of the loop body: handle `content`.  If the status
just reached (or already was) `"think"`, the `"</think>"` marker is
prepended and the status becomes `"answer"`; the text is appended to
`response_content` with `+=` and yielded. -/
def answerStep (p : StreamState × List ModelResponse) (delta : Delta) :
    StreamState × List ModelResponse :=
  if truthy delta.content then
    if p.1.status = "think" then
      (⟨⟨p.1.stream_data.response_content ++ ("</think>" ++ delta.content.getD ""),
         p.1.stream_data.response_reasoning_content⟩, "answer"⟩,
       p.2 ++ [⟨"</think>" ++ delta.content.getD ""⟩])
    else
      (⟨⟨p.1.stream_data.response_content ++ delta.content.getD "",
         p.1.stream_data.response_reasoning_content⟩, p.1.status⟩,
       p.2 ++ [⟨delta.content.getD ""⟩])
  else p

/-- One iteration of the loop: a fragment without choices is only printed
(`continue`), otherwise `choices[0].delta` goes through both blocks. -/
def processChunk (st : StreamState) (chunk : ChatCompletionChunk) :
    StreamState × List ModelResponse :=
  match chunk.choices with
  | [] => (st, [])
  | choice :: _ => answerStep (reasonStep st choice.delta) choice.delta

/-- The whole loop from an arbitrary state: final state plus all yielded
events in order. -/
def run (st : StreamState) : List ChatCompletionChunk → StreamState × List ModelResponse
  | [] => (st, [])
  | c :: cs =>
    ((run (processChunk st c).1 cs).1, (processChunk st c).2 ++ (run (processChunk st c).1 cs).2)

/-- `response_stream` on a given fragment stream: run the loop from the
initial state. -/
def response_stream (chunks : List ChatCompletionChunk) : StreamState × List ModelResponse :=
  run initState chunks

/-- Final loop state after the whole stream. -/
def stateAfter (chunks : List ChatCompletionChunk) : StreamState :=
  (response_stream chunks).1

/-- Texts of the emitted events, in order. -/
def eventTexts (chunks : List ChatCompletionChunk) : List String :=
  (response_stream chunks).2.map ModelResponse.content

/-- The reasoning payload a fragment carries, when its first choice has
non-empty reasoning text. -/
def chunkReasoning (c : ChatCompletionChunk) : Option String :=
  match c.choices with
  | [] => none
  | ch :: _ =>
    if truthy ch.delta.reasoning_content then some (ch.delta.reasoning_content.getD "") else none

/-- The answer payload a fragment carries, when its first choice has
non-empty answer text. -/
def chunkAnswer (c : ChatCompletionChunk) : Option String :=
  match c.choices with
  | [] => none
  | ch :: _ =>
    if truthy ch.delta.content then some (ch.delta.content.getD "") else none

/-- Status after the reasoning block of one iteration. -/
def statusStepR (s : String) (c : ChatCompletionChunk) : String :=
  match chunkReasoning c with
  | some _ => if s = "" then "think" else s
  | none => s

/-- Status after one whole iteration (reasoning block, then answer block). -/
def statusStep (s : String) (c : ChatCompletionChunk) : String :=
  match chunkAnswer c with
  | some _ => if statusStepR s c = "think" then "answer" else statusStepR s c
  | none => statusStepR s c

/-- Status after a whole fragment list, starting from status `s`. -/
def statusFrom (s : String) : List ChatCompletionChunk → String
  | [] => s
  | c :: cs => statusFrom (statusStep s c) cs

/-- Texts emitted by the reasoning block of one iteration entered with
status `s` (empty or a singleton). -/
def chunkReasoningEvents (s : String) (c : ChatCompletionChunk) : List String :=
  match chunkReasoning c with
  | some r => [if s = "" then "<think>" ++ r else r]
  | none => []

/-- Texts emitted by the answer block of one iteration entered with
status `s` (empty or a singleton). -/
def chunkAnswerEvents (s : String) (c : ChatCompletionChunk) : List String :=
  match chunkAnswer c with
  | some a => [if statusStepR s c = "think" then "</think>" ++ a else a]
  | none => []

/-- All texts emitted during one iteration entered with status `s`. -/
def chunkEvents (s : String) (c : ChatCompletionChunk) : List String :=
  chunkReasoningEvents s c ++ chunkAnswerEvents s c

/-- Texts of every event emitted over a fragment list from status `s`. -/
def eventsFrom (s : String) : List ChatCompletionChunk → List String
  | [] => []
  | c :: cs => chunkEvents s c ++ eventsFrom (statusStep s c) cs

/-- Texts of the reasoning-bearing events over a fragment list. -/
def reasoningEventsFrom (s : String) : List ChatCompletionChunk → List String
  | [] => []
  | c :: cs => chunkReasoningEvents s c ++ reasoningEventsFrom (statusStep s c) cs

/-- Texts of the answer-bearing events over a fragment list. -/
def answerEventsFrom (s : String) : List ChatCompletionChunk → List String
  | [] => []
  | c :: cs => chunkAnswerEvents s c ++ answerEventsFrom (statusStep s c) cs

/-- Raw payload texts of a fragment (reasoning first, then answer), with no
markers inserted. -/
def chunkTexts (c : ChatCompletionChunk) : List String :=
  (chunkReasoning c).toList ++ (chunkAnswer c).toList

/-- Raw payload texts of a fragment list, in emission order. -/
def plainTexts : List ChatCompletionChunk → List String
  | [] => []
  | c :: cs => chunkTexts c ++ plainTexts cs

/-- Flatten a list of strings into a character list. -/
def concatChars : List String → List Char
  | [] => []
  | s :: rest => s.data ++ concatChars rest

/-- Characters of the concatenation of all emitted event texts. -/
def outputChars (chunks : List ChatCompletionChunk) : List Char :=
  concatChars (eventTexts chunks)

/-- Left-biased choice on optional strings (models overwriting assignment:
the latest written value wins, the fallback is the previous one). -/
def optOr (a b : Option String) : Option String :=
  match a with
  | some x => some x
  | none => b

/-- The reasoning text returned by `firstReasoning` is carried by the first
reasoning-bearing fragment; everything before it carries none. -/
def firstReasoning : List ChatCompletionChunk → Option String
  | [] => none
  | c :: cs =>
    match chunkReasoning c with
    | some r => some r
    | none => firstReasoning cs

/-- First answer payload in a fragment list. -/
def firstAnswerIn : List ChatCompletionChunk → Option String
  | [] => none
  | c :: cs =>
    match chunkAnswer c with
    | some a => some a
    | none => firstAnswerIn cs

/-- First answer payload at or after the first reasoning-bearing fragment
(an answer in that same fragment counts, since the source handles the
reasoning block before the answer block). -/
def firstAnswerAfterReasoning : List ChatCompletionChunk → Option String
  | [] => none
  | c :: cs =>
    match chunkReasoning c with
    | some _ =>
      (match chunkAnswer c with
       | some a => some a
       | none => firstAnswerIn cs)
    | none => firstAnswerAfterReasoning cs

/-- Does pattern `p` match at the head of `l`? -/
def hitsAt : List Char → List Char → Bool
  | [], _ => true
  | _ :: _, [] => false
  | a :: ps, b :: ls => a == b && hitsAt ps ls

/-- Number of positions of `l` at which pattern `p` matches. -/
def countOccs (p : List Char) : List Char → Nat
  | [] => if hitsAt p [] then 1 else 0
  | c :: ls => (if hitsAt p (c :: ls) then 1 else 0) + countOccs p ls

/-- Characters of the opening marker `"<think>"`. -/
def thinkTag : List Char := "<think>".data

/-- Characters of the closing marker `"</think>"`. -/
def closeTag : List Char := "</think>".data

/-- A fragment whose only choice carries reasoning text `s`. -/
def rChunk (s : String) : ChatCompletionChunk := ⟨[⟨⟨some s, none⟩⟩], none⟩

/-- A fragment whose only choice carries answer text `s`. -/
def aChunk (s : String) : ChatCompletionChunk := ⟨[⟨⟨none, some s⟩⟩], none⟩

/-- One loop iteration with Python's indexing modelled as fallible:
`response.choices[0]` raises (here: `none`) on an empty list.  The guard
`if not response.choices: continue` runs first, exactly as in the source,
and missing `reasoning_content`/`content` attributes are optional fields
checked with `truthy`, never a failure. -/
def processChunkE (st : StreamState) (chunk : ChatCompletionChunk) :
    Option (StreamState × List ModelResponse) :=
  if chunk.choices.isEmpty then some (st, [])
  else
    match chunk.choices.head? with
    | none => none
    | some choice => some (answerStep (reasonStep st choice.delta) choice.delta)

/-- The three phases as ranks: `""` (NOT_STARTED) < `"think"` (REASONING)
< `"answer"` (ANSWERING). -/
def statusRank (s : String) : Nat :=
  if s = "" then 0 else if s = "think" then 1 else 2

/-- The status strings the loop can ever hold. -/
def validStatus (s : String) : Prop :=
  s = "" ∨ s = "think" ∨ s = "answer"

@[simp] lemma optOr_none_left (b : Option String) : optOr none b = b := rfl

@[simp] lemma optOr_some_left (x : String) (b : Option String) : optOr (some x) b = some x := rfl

@[simp] lemma optOr_none_right (a : Option String) : optOr a none = a := by
  cases a <;> rfl

lemma data_append (a b : String) : (a ++ b).data = a.data ++ b.data := rfl

/-- What one iteration does, stated with the status automaton and the
per-fragment event lists: the resulting status is `statusStep`, the events
are `chunkEvents`, the reasoning field is overwritten by the reasoning
event (if any), and the content field grows by the answer event (if any). -/
lemma processChunk_spec (st : StreamState) (c : ChatCompletionChunk) :
    (processChunk st c).1.status = statusStep st.status c ∧
    (processChunk st c).2 = (chunkEvents st.status c).map ModelResponse.mk ∧
    (processChunk st c).1.stream_data.response_reasoning_content =
      optOr ((chunkReasoningEvents st.status c).getLast?)
        st.stream_data.response_reasoning_content ∧
    (processChunk st c).1.stream_data.response_content.data =
      st.stream_data.response_content.data ++ concatChars (chunkAnswerEvents st.status c) := by
  obtain ⟨choices, usage⟩ := c
  cases choices with
  | nil =>
    simp [processChunk, chunkReasoning, chunkAnswer, chunkEvents, chunkReasoningEvents,
      chunkAnswerEvents, statusStep, statusStepR, concatChars]
  | cons ch tl =>
    by_cases hR : truthy ch.delta.reasoning_content <;>
      by_cases hA : truthy ch.delta.content <;>
        by_cases hS : st.status = "" <;>
          simp [processChunk, reasonStep, answerStep, chunkReasoning, chunkAnswer,
            chunkEvents, chunkReasoningEvents, chunkAnswerEvents, statusStep, statusStepR,
            concatChars, hR, hA, hS, optOr, data_append] <;>
          split <;>
          simp_all [data_append]

lemma getLast?_append_or (l1 l2 : List String) (v : Option String) :
    optOr ((l1 ++ l2).getLast?) v = optOr (l2.getLast?) (optOr (l1.getLast?) v) := by
  cases l2 with
  | nil => simp
  | cons y ys =>
    rw [List.getLast?_append_cons]
    cases h : (y :: ys).getLast? with
    | none => simp at h
    | some z => simp

/-- The loop agrees with the status automaton and the pure event-list
functions, from any starting state. -/
lemma run_spec (cs : List ChatCompletionChunk) : ∀ st : StreamState,
    (run st cs).1.status = statusFrom st.status cs ∧
    (run st cs).2 = (eventsFrom st.status cs).map ModelResponse.mk := by
  induction cs with
  | nil => intro st; simp [run, statusFrom, eventsFrom]
  | cons c cs ih =>
    intro st
    have hpc := processChunk_spec st c
    have hrest := ih (processChunk st c).1
    refine ⟨?_, ?_⟩
    · rw [run]
      simp only [statusFrom, ← hpc.1]
      exact hrest.1
    · rw [run]
      simp only [eventsFrom, List.map_append, hpc.2.1, ← hpc.1]
      rw [hrest.2]

/-- Over the whole loop, `response_reasoning_content` holds the text of the
latest reasoning-bearing event, falling back to its starting value. -/
lemma run_reasoning_field (cs : List ChatCompletionChunk) : ∀ st : StreamState,
    (run st cs).1.stream_data.response_reasoning_content =
      optOr ((reasoningEventsFrom st.status cs).getLast?)
        st.stream_data.response_reasoning_content := by
  induction cs with
  | nil => intro st; simp [run, reasoningEventsFrom]
  | cons c cs ih =>
    intro st
    have hpc := processChunk_spec st c
    rw [run]
    simp only [reasoningEventsFrom, getLast?_append_or]
    rw [ih (processChunk st c).1, hpc.1, hpc.2.2.1]

/-- Over the whole loop, `response_content` accumulates (with `++`) the
texts of all answer-bearing events, in order. -/
lemma run_content_field (cs : List ChatCompletionChunk) : ∀ st : StreamState,
    (run st cs).1.stream_data.response_content.data =
      st.stream_data.response_content.data ++ concatChars (answerEventsFrom st.status cs) := by
  induction cs with
  | nil => intro st; simp [run, answerEventsFrom, concatChars]
  | cons c cs ih =>
    intro st
    have hpc := processChunk_spec st c
    rw [run]
    simp only [answerEventsFrom]
    rw [ih (processChunk st c).1, hpc.1, hpc.2.2.2]
    have : ∀ l1 l2 : List String, concatChars (l1 ++ l2) = concatChars l1 ++ concatChars l2 := by
      intro l1 l2
      induction l1 with
      | nil => simp [concatChars]
      | cons s rest ihc => simp [concatChars, ihc]
    rw [this, List.append_assoc]

lemma concatChars_append (l1 l2 : List String) :
    concatChars (l1 ++ l2) = concatChars l1 ++ concatChars l2 := by
  induction l1 with
  | nil => simp [concatChars]
  | cons s rest ihc => simp [concatChars, ihc]

/-- Splitting the loop after a prefix of the stream. -/
lemma run_append (l1 l2 : List ChatCompletionChunk) : ∀ st : StreamState,
    run st (l1 ++ l2) =
      ((run (run st l1).1 l2).1, (run st l1).2 ++ (run (run st l1).1 l2).2) := by
  induction l1 with
  | nil => intro st; simp [run]
  | cons c cs ih =>
    intro st
    rw [List.cons_append, run, run, ih (processChunk st c).1, List.append_assoc]

/-- The event texts of the stream are exactly `eventsFrom ""`. -/
lemma eventTexts_eq (chunks : List ChatCompletionChunk) :
    eventTexts chunks = eventsFrom "" chunks := by
  have h := (run_spec chunks initState).2
  rw [eventTexts, response_stream, h, List.map_map]
  rw [show ModelResponse.content ∘ ModelResponse.mk = id from rfl, List.map_id]
  rfl

/-- The final status of the stream is exactly `statusFrom ""`. -/
lemma statusAfter_eq (chunks : List ChatCompletionChunk) :
    (stateAfter chunks).status = statusFrom "" chunks := by
  exact (run_spec chunks initState).1

lemma statusStepR_answer (c : ChatCompletionChunk) : statusStepR "answer" c = "answer" := by
  unfold statusStepR
  cases chunkReasoning c <;> simp

lemma statusStep_answer (c : ChatCompletionChunk) : statusStep "answer" c = "answer" := by
  unfold statusStep
  cases chunkAnswer c <;> simp [statusStepR_answer]

lemma chunkEvents_answer (c : ChatCompletionChunk) : chunkEvents "answer" c = chunkTexts c := by
  unfold chunkEvents chunkReasoningEvents chunkAnswerEvents chunkTexts
  cases chunkReasoning c <;> cases chunkAnswer c <;> simp [statusStepR_answer]

/-- In `"answer"` status the remaining payloads are emitted verbatim. -/
lemma eventsFrom_answer (cs : List ChatCompletionChunk) :
    eventsFrom "answer" cs = plainTexts cs := by
  induction cs with
  | nil => rfl
  | cons c cs ih => rw [eventsFrom, statusStep_answer, ih, chunkEvents_answer, plainTexts]

lemma statusStepR_think (c : ChatCompletionChunk) : statusStepR "think" c = "think" := by
  unfold statusStepR
  cases chunkReasoning c <;> simp

lemma statusStep_think_noans (c : ChatCompletionChunk) (h : chunkAnswer c = none) :
    statusStep "think" c = "think" := by
  unfold statusStep
  rw [h, statusStepR_think]

lemma chunkEvents_think_noans (c : ChatCompletionChunk) (h : chunkAnswer c = none) :
    chunkEvents "think" c = chunkTexts c := by
  unfold chunkEvents chunkReasoningEvents chunkAnswerEvents chunkTexts
  rw [h]
  cases chunkReasoning c <;> simp

/-- In `"think"` status, while no answer text arrives, reasoning payloads
are emitted verbatim and the status stays `"think"`. -/
lemma eventsFrom_think_noans (cs : List ChatCompletionChunk)
    (h : ∀ c ∈ cs, chunkAnswer c = none) :
    eventsFrom "think" cs = plainTexts cs ∧ statusFrom "think" cs = "think" := by
  induction cs with
  | nil => exact ⟨rfl, rfl⟩
  | cons c cs ih =>
    have hc : chunkAnswer c = none := h c (List.mem_cons_self c cs)
    have ihr := ih (fun d hd => h d (List.mem_cons_of_mem c hd))
    constructor
    · rw [eventsFrom, statusStep_think_noans c hc, ihr.1, chunkEvents_think_noans c hc,
        plainTexts]
    · rw [statusFrom, statusStep_think_noans c hc, ihr.2]

/-- In `"think"` status, a fragment list whose first answer-bearing
fragment is `c` emits the earlier reasoning payloads verbatim, then `c`'s
reasoning payload (if any), then `"</think>"` glued to `c`'s answer text,
then everything after verbatim. -/
lemma eventsFrom_think_split (pre : List ChatCompletionChunk) (c : ChatCompletionChunk)
    (post : List ChatCompletionChunk) (a : String)
    (hpre : ∀ d ∈ pre, chunkAnswer d = none) (hc : chunkAnswer c = some a) :
    eventsFrom "think" (pre ++ c :: post) =
      plainTexts pre ++ (chunkReasoning c).toList ++ ("</think>" ++ a) :: plainTexts post := by
  induction pre with
  | nil =>
    have hstep : statusStep "think" c = "answer" := by
      unfold statusStep
      rw [hc, statusStepR_think]
      simp
    simp only [List.nil_append, eventsFrom, hstep, eventsFrom_answer, plainTexts]
    unfold chunkEvents chunkReasoningEvents chunkAnswerEvents
    rw [hc, statusStepR_think]
    cases chunkReasoning c <;> simp
  | cons d pre ih =>
    have hd : chunkAnswer d = none := hpre d (List.mem_cons_self d pre)
    have ihr := ih (fun e he => hpre e (List.mem_cons_of_mem d he))
    rw [List.cons_append, eventsFrom, statusStep_think_noans d hd, ihr,
      chunkEvents_think_noans d hd, plainTexts]
    simp [List.append_assoc]

lemma statusStepR_empty_noreason (c : ChatCompletionChunk) (h : chunkReasoning c = none) :
    statusStepR "" c = "" := by
  unfold statusStepR
  rw [h]

lemma statusStep_empty_noreason (c : ChatCompletionChunk) (h : chunkReasoning c = none) :
    statusStep "" c = "" := by
  unfold statusStep
  rw [statusStepR_empty_noreason c h]
  cases chunkAnswer c <;> simp

lemma chunkEvents_empty_noreason (c : ChatCompletionChunk) (h : chunkReasoning c = none) :
    chunkEvents "" c = chunkTexts c := by
  unfold chunkEvents chunkReasoningEvents chunkAnswerEvents chunkTexts
  rw [h, statusStepR_empty_noreason c h]
  cases chunkAnswer c <;> simp

/-- Before any reasoning text has arrived, answer payloads are emitted
verbatim and the status stays `""`. -/
lemma eventsFrom_empty_noreason (cs : List ChatCompletionChunk)
    (h : ∀ c ∈ cs, chunkReasoning c = none) :
    eventsFrom "" cs = plainTexts cs ∧ statusFrom "" cs = "" := by
  induction cs with
  | nil => exact ⟨rfl, rfl⟩
  | cons c cs ih =>
    have hc : chunkReasoning c = none := h c (List.mem_cons_self c cs)
    have ihr := ih (fun d hd => h d (List.mem_cons_of_mem c hd))
    constructor
    · rw [eventsFrom, statusStep_empty_noreason c hc, ihr.1, chunkEvents_empty_noreason c hc,
        plainTexts]
    · rw [statusFrom, statusStep_empty_noreason c hc, ihr.2]

lemma statusFrom_append (l1 l2 : List ChatCompletionChunk) : ∀ s,
    statusFrom s (l1 ++ l2) = statusFrom (statusFrom s l1) l2 := by
  induction l1 with
  | nil => intro s; rfl
  | cons c cs ih => intro s; rw [List.cons_append, statusFrom, statusFrom, ih]

lemma eventsFrom_append (l1 l2 : List ChatCompletionChunk) : ∀ s,
    eventsFrom s (l1 ++ l2) = eventsFrom s l1 ++ eventsFrom (statusFrom s l1) l2 := by
  induction l1 with
  | nil => intro s; rfl
  | cons c cs ih =>
    intro s
    rw [List.cons_append, eventsFrom, eventsFrom, statusFrom, ih, List.append_assoc]

lemma firstReasoning_split (cs : List ChatCompletionChunk) (r : String)
    (h : firstReasoning cs = some r) :
    ∃ pre c post, cs = pre ++ c :: post ∧ (∀ d ∈ pre, chunkReasoning d = none) ∧
      chunkReasoning c = some r := by
  induction cs with
  | nil => simp [firstReasoning] at h
  | cons c cs ih =>
    rw [firstReasoning] at h
    cases hc : chunkReasoning c with
    | some r' =>
      rw [hc] at h
      refine ⟨[], c, cs, rfl, by simp, ?_⟩
      simpa using h ▸ hc
    | none =>
      rw [hc] at h
      obtain ⟨pre, c', post, hcs, hpre, hc'⟩ := ih h
      refine ⟨c :: pre, c', post, by rw [hcs, List.cons_append], ?_, hc'⟩
      intro d hd
      rcases List.mem_cons.mp hd with h1 | h2
      · rw [h1]; exact hc
      · exact hpre d h2

lemma firstAnswerIn_split (cs : List ChatCompletionChunk) (a : String)
    (h : firstAnswerIn cs = some a) :
    ∃ pre c post, cs = pre ++ c :: post ∧ (∀ d ∈ pre, chunkAnswer d = none) ∧
      chunkAnswer c = some a := by
  induction cs with
  | nil => simp [firstAnswerIn] at h
  | cons c cs ih =>
    rw [firstAnswerIn] at h
    cases hc : chunkAnswer c with
    | some a' =>
      rw [hc] at h
      refine ⟨[], c, cs, rfl, by simp, ?_⟩
      simpa using h ▸ hc
    | none =>
      rw [hc] at h
      obtain ⟨pre, c', post, hcs, hpre, hc'⟩ := ih h
      refine ⟨c :: pre, c', post, by rw [hcs, List.cons_append], ?_, hc'⟩
      intro d hd
      rcases List.mem_cons.mp hd with h1 | h2
      · rw [h1]; exact hc
      · exact hpre d h2

lemma firstAAR_reduce (pre : List ChatCompletionChunk)
    (hpre : ∀ d ∈ pre, chunkReasoning d = none) (rest : List ChatCompletionChunk) :
    firstAnswerAfterReasoning (pre ++ rest) = firstAnswerAfterReasoning rest := by
  induction pre with
  | nil => rfl
  | cons d pre ih =>
    have hd : chunkReasoning d = none := hpre d (List.mem_cons_self d pre)
    rw [List.cons_append, firstAnswerAfterReasoning, hd]
    exact ih (fun e he => hpre e (List.mem_cons_of_mem d he))

lemma chunkReasoning_ne_empty (c : ChatCompletionChunk) (r : String)
    (h : chunkReasoning c = some r) : ¬(r = "") := by
  unfold chunkReasoning at h
  split at h
  · exact absurd h (by simp)
  · rename_i x0 ch tl hch
    split at h
    · rename_i ht
      cases ho : ch.delta.reasoning_content with
      | none => rw [ho] at ht; exact absurd ht (by simp [truthy])
      | some s =>
        rw [ho] at ht h
        simp only [truthy, Bool.not_eq_eq_eq_not, Bool.not_true] at ht
        simp only [Option.getD_some, Option.some.injEq] at h
        intro hr
        rw [hr] at h
        rw [h] at ht
        exact absurd ht (by decide)
    · exact absurd h (by simp)

lemma chunkAnswer_ne_empty (c : ChatCompletionChunk) (a : String)
    (h : chunkAnswer c = some a) : ¬(a = "") := by
  unfold chunkAnswer at h
  split at h
  · exact absurd h (by simp)
  · rename_i x0 ch tl hch
    split at h
    · rename_i ht
      cases ho : ch.delta.content with
      | none => rw [ho] at ht; exact absurd ht (by simp [truthy])
      | some s =>
        rw [ho] at ht h
        simp only [truthy, Bool.not_eq_eq_eq_not, Bool.not_true] at ht
        simp only [Option.getD_some, Option.some.injEq] at h
        intro ha
        rw [ha] at h
        rw [h] at ht
        exact absurd ht (by decide)
    · exact absurd h (by simp)

example : eventTexts
    [⟨[⟨⟨some "a", none⟩⟩], none⟩, ⟨[⟨⟨some "b", none⟩⟩], none⟩, ⟨[⟨⟨none, some "c"⟩⟩], none⟩] =
    ["<think>a", "b", "</think>c"] := by decide

example : eventsFrom ""
    [⟨[⟨⟨some "a", none⟩⟩], none⟩, ⟨[⟨⟨some "b", none⟩⟩], none⟩, ⟨[⟨⟨none, some "c"⟩⟩], none⟩] =
    ["<think>a", "b", "</think>c"] := by decide

lemma countOccs_skip (ps l m : List Char) (hl : Char.ofNat 60 ∉ l) :
    countOccs (Char.ofNat 60 :: ps) (l ++ m) = countOccs (Char.ofNat 60 :: ps) m := by
  induction l with
  | nil => rfl
  | cons x l ih =>
    have hx : ¬(Char.ofNat 60 = x) := fun hc => hl (hc ▸ List.mem_cons_self x l)
    have hx2 : (Char.ofNat 60 == x) = false := by
      exact beq_false_of_ne hx
    rw [List.cons_append, countOccs]
    have : hitsAt (Char.ofNat 60 :: ps) (x :: (l ++ m)) = false := by
      rw [hitsAt, hx2, Bool.false_and]
    rw [this]
    simp only [if_neg Bool.false_ne_true]
    rw [ih (fun hmem => hl (List.mem_cons_of_mem x hmem)), Nat.zero_add]

lemma countOccs_free (ps l : List Char) (hl : Char.ofNat 60 ∉ l) :
    countOccs (Char.ofNat 60 :: ps) l = 0 := by
  have h := countOccs_skip ps l [] hl
  rw [List.append_nil] at h
  rw [h]
  rfl

lemma thinkTag_eq : thinkTag = Char.ofNat 60 :: "think>".data := by decide

lemma closeTag_eq : closeTag = Char.ofNat 60 :: "/think>".data := by decide

/-- In a character stream of the shape `A ++ "<think>" ++ M ++ "</think>" ++ T`
where `A`, `M` and `T` contain no `<` character, each of the two markers
occurs at exactly one position. -/
lemma marker_counts (A M T : List Char) (hA : Char.ofNat 60 ∉ A)
    (hM : Char.ofNat 60 ∉ M) (hT : Char.ofNat 60 ∉ T) :
    countOccs thinkTag (A ++ (thinkTag ++ (M ++ (closeTag ++ T)))) = 1 ∧
    countOccs closeTag (A ++ (thinkTag ++ (M ++ (closeTag ++ T)))) = 1 := by
  have hthink : Char.ofNat 60 ∉ "think>".data := by decide
  have hsthink : Char.ofNat 60 ∉ "/think>".data := by decide
  constructor
  · rw [thinkTag_eq, countOccs_skip _ _ _ hA, List.cons_append, countOccs]
    have h1 : hitsAt (Char.ofNat 60 :: "think>".data)
        (Char.ofNat 60 :: ("think>".data ++ (M ++ (closeTag ++ T)))) = true := by
      rw [hitsAt]
      have : ∀ q m : List Char, hitsAt q (q ++ m) = true := by
        intro q
        induction q with
        | nil => intro m; rfl
        | cons a qs ihq =>
          intro m
          rw [List.cons_append, hitsAt, beq_self_eq_true, Bool.true_and]
          exact ihq m
      rw [beq_self_eq_true, Bool.true_and]
      exact this "think>".data (M ++ (closeTag ++ T))
    rw [h1, if_pos rfl]
    rw [countOccs_skip _ _ _ hthink, countOccs_skip _ _ _ hM, closeTag_eq,
      List.cons_append, countOccs]
    have h2 : hitsAt (Char.ofNat 60 :: "think>".data)
        (Char.ofNat 60 :: ("/think>".data ++ T)) = false := by
      rw [hitsAt, beq_self_eq_true, Bool.true_and]
      rw [show "think>".data = 't' :: "hink>".data from rfl,
        show "/think>".data = '/' :: "think>".data from rfl, List.cons_append, hitsAt]
      rw [show (('t' : Char) == '/') = false from rfl, Bool.false_and]
    rw [h2]
    simp only [if_neg Bool.false_ne_true]
    rw [countOccs_skip _ _ _ hsthink, countOccs_free _ _ hT]
  · rw [closeTag_eq, countOccs_skip _ _ _ hA, thinkTag_eq, List.cons_append, countOccs]
    have h1 : hitsAt (Char.ofNat 60 :: "/think>".data)
        (Char.ofNat 60 :: ("think>".data ++ (M ++ ((Char.ofNat 60 :: "/think>".data) ++ T)))) =
        false := by
      rw [hitsAt, beq_self_eq_true, Bool.true_and]
      rw [show "/think>".data = '/' :: "think>".data from rfl,
        show "think>".data = 't' :: "hink>".data from rfl, List.cons_append, hitsAt]
      rw [show (('/' : Char) == 't') = false from rfl, Bool.false_and]
    rw [h1]
    simp only [if_neg Bool.false_ne_true]
    rw [countOccs_skip _ _ _ hthink, countOccs_skip _ _ _ hM, List.cons_append, countOccs]
    have h2 : hitsAt (Char.ofNat 60 :: "/think>".data)
        (Char.ofNat 60 :: ("/think>".data ++ T)) = true := by
      rw [hitsAt, beq_self_eq_true, Bool.true_and]
      have : ∀ q m : List Char, hitsAt q (q ++ m) = true := by
        intro q
        induction q with
        | nil => intro m; rfl
        | cons a qs ihq =>
          intro m
          rw [List.cons_append, hitsAt, beq_self_eq_true, Bool.true_and]
          exact ihq m
      exact this "/think>".data T
    rw [h2, if_pos rfl]
    rw [countOccs_skip _ _ _ hsthink, countOccs_free _ _ hT, Nat.zero_add, Nat.add_zero]

lemma mem_plainTexts (s : String) (l : List ChatCompletionChunk) (h : s ∈ plainTexts l) :
    ∃ c, c ∈ l ∧ s ∈ chunkTexts c := by
  induction l with
  | nil => simp [plainTexts] at h
  | cons c cs ih =>
    rw [plainTexts] at h
    rcases List.mem_append.mp h with h1 | h2
    · exact ⟨c, List.mem_cons_self c cs, h1⟩
    · obtain ⟨d, hd, hs⟩ := ih h2
      exact ⟨d, List.mem_cons_of_mem c hd, hs⟩

lemma mem_chunkTexts_reasoning (c : ChatCompletionChunk) (r : String)
    (h : chunkReasoning c = some r) : r ∈ chunkTexts c := by
  unfold chunkTexts
  rw [h]
  exact List.mem_append_left _ (by simp)

lemma mem_chunkTexts_answer (c : ChatCompletionChunk) (a : String)
    (h : chunkAnswer c = some a) : a ∈ chunkTexts c := by
  unfold chunkTexts
  rw [h]
  exact List.mem_append_right _ (by simp)

lemma free_concat (l : List String) (h : ∀ s ∈ l, Char.ofNat 60 ∉ s.data) :
    Char.ofNat 60 ∉ concatChars l := by
  induction l with
  | nil => simp [concatChars]
  | cons s rest ih =>
    rw [concatChars]
    intro hmem
    rcases List.mem_append.mp hmem with h1 | h2
    · exact h s (List.mem_cons_self s rest) h1
    · exact ih (fun t ht => h t (List.mem_cons_of_mem s ht)) h2

/-- Decomposition of the emitted texts once the stream has a reasoning
fragment eventually followed by an answer: the event list is some plain
payloads, then the `"<think>"`-prefixed first reasoning text, then plain
payloads, then the `"</think>"`-prefixed first answer text after reasoning
began, then plain payloads; every other text involved is a raw payload of
some fragment of the stream. -/
lemma eventTexts_marker_split (cs : List ChatCompletionChunk) (r a : String)
    (hr : firstReasoning cs = some r) (ha : firstAnswerAfterReasoning cs = some a) :
    ∃ preL midL postL,
      eventTexts cs = preL ++ (("<think>" ++ r) :: (midL ++ (("</think>" ++ a) :: postL))) ∧
      (∀ s, s ∈ preL ∨ s ∈ midL ∨ s ∈ postL → ∃ c, c ∈ cs ∧ s ∈ chunkTexts c) ∧
      (∃ c, c ∈ cs ∧ r ∈ chunkTexts c) ∧ (∃ c, c ∈ cs ∧ a ∈ chunkTexts c) := by
  obtain ⟨pre, c, post, hcs, hpre, hcr⟩ := firstReasoning_split cs r hr
  subst hcs
  rw [firstAAR_reduce pre hpre, firstAnswerAfterReasoning, hcr] at ha
  have hpreE := eventsFrom_empty_noreason pre hpre
  have hmemc : c ∈ pre ++ c :: post := List.mem_append_right _ (List.mem_cons_self c post)
  have hrtexts : r ∈ chunkTexts c := mem_chunkTexts_reasoning c r hcr
  rw [eventTexts_eq, eventsFrom_append, hpreE.1, hpreE.2, eventsFrom]
  cases hca : chunkAnswer c with
  | some a0 =>
    rw [hca] at ha
    simp only [Option.some.injEq] at ha
    subst ha
    have hstepR : statusStepR "" c = "think" := by
      unfold statusStepR
      rw [hcr]
      simp
    have hstep : statusStep "" c = "answer" := by
      unfold statusStep
      rw [hca, hstepR]
      simp
    have hev : chunkEvents "" c = ["<think>" ++ r, "</think>" ++ a0] := by
      unfold chunkEvents chunkReasoningEvents chunkAnswerEvents
      rw [hcr, hca, hstepR]
      simp
    refine ⟨plainTexts pre, [], plainTexts post, ?_, ?_, ⟨c, hmemc, hrtexts⟩,
      ⟨c, hmemc, mem_chunkTexts_answer c a0 hca⟩⟩
    · rw [hstep, eventsFrom_answer, hev]
      simp
    · intro s hs
      rcases hs with h1 | h2 | h3
      · obtain ⟨d, hd, hds⟩ := mem_plainTexts s pre h1
        exact ⟨d, List.mem_append_left _ hd, hds⟩
      · simp at h2
      · obtain ⟨d, hd, hds⟩ := mem_plainTexts s post h3
        exact ⟨d, List.mem_append_right _ (List.mem_cons_of_mem c hd), hds⟩
  | none =>
    rw [hca] at ha
    obtain ⟨pre2, c2, post2, hpost, hpre2, hca2⟩ := firstAnswerIn_split post a ha
    subst hpost
    have hstepR : statusStepR "" c = "think" := by
      unfold statusStepR
      rw [hcr]
      simp
    have hstep : statusStep "" c = "think" := by
      unfold statusStep
      rw [hca, hstepR]
    have hev : chunkEvents "" c = ["<think>" ++ r] := by
      unfold chunkEvents chunkReasoningEvents chunkAnswerEvents
      rw [hcr, hca]
      simp
    have hmemc2 : c2 ∈ pre ++ c :: (pre2 ++ c2 :: post2) :=
      List.mem_append_right _ (List.mem_cons_of_mem c
        (List.mem_append_right _ (List.mem_cons_self c2 post2)))
    refine ⟨plainTexts pre, plainTexts pre2 ++ (chunkReasoning c2).toList,
      plainTexts post2, ?_, ?_, ⟨c, hmemc, hrtexts⟩,
      ⟨c2, hmemc2, mem_chunkTexts_answer c2 a hca2⟩⟩
    · rw [hstep, eventsFrom_think_split pre2 c2 post2 a hpre2 hca2, hev]
      simp [List.append_assoc]
    · intro s hs
      rcases hs with h1 | h2 | h3
      · obtain ⟨d, hd, hds⟩ := mem_plainTexts s pre h1
        exact ⟨d, List.mem_append_left _ hd, hds⟩
      · rcases List.mem_append.mp h2 with h2a | h2b
        · obtain ⟨d, hd, hds⟩ := mem_plainTexts s pre2 h2a
          exact ⟨d, List.mem_append_right _ (List.mem_cons_of_mem c
            (List.mem_append_left _ hd)), hds⟩
        · cases hcr2 : chunkReasoning c2 with
          | none => rw [hcr2] at h2b; simp at h2b
          | some r2 =>
            rw [hcr2] at h2b
            simp only [Option.toList_some, List.mem_singleton] at h2b
            subst h2b
            exact ⟨c2, hmemc2, mem_chunkTexts_reasoning c2 s hcr2⟩
      · obtain ⟨d, hd, hds⟩ := mem_plainTexts s post2 h3
        exact ⟨d, List.mem_append_right _ (List.mem_cons_of_mem c
          (List.mem_append_right _ (List.mem_cons_of_mem c2 hd))), hds⟩

lemma lt_char_eq : ('<' : Char) = Char.ofNat 60 := rfl

lemma firstReasoning_ne_empty (cs : List ChatCompletionChunk) (r : String)
    (h : firstReasoning cs = some r) : ¬(r = "") := by
  obtain ⟨pre, c, post, _, _, hcr⟩ := firstReasoning_split cs r h
  exact chunkReasoning_ne_empty c r hcr

lemma firstAnswerIn_ne_empty (cs : List ChatCompletionChunk) (a : String)
    (h : firstAnswerIn cs = some a) : ¬(a = "") := by
  obtain ⟨pre, c, post, _, _, hca⟩ := firstAnswerIn_split cs a h
  exact chunkAnswer_ne_empty c a hca

lemma firstAAR_ne_empty (cs : List ChatCompletionChunk) (a : String)
    (h : firstAnswerAfterReasoning cs = some a) : ¬(a = "") := by
  induction cs with
  | nil => simp [firstAnswerAfterReasoning] at h
  | cons c cs ih =>
    rw [firstAnswerAfterReasoning] at h
    cases hcr : chunkReasoning c with
    | some r =>
      rw [hcr] at h
      cases hca : chunkAnswer c with
      | some a0 =>
        rw [hca] at h
        simp only [Option.some.injEq] at h
        exact h ▸ chunkAnswer_ne_empty c a0 hca
      | none =>
        rw [hca] at h
        exact firstAnswerIn_ne_empty cs a h
    | none =>
      rw [hcr] at h
      exact ih h

/-- Claim C1, amended: for every fragment sequence with a non-empty
reasoning text eventually followed by a non-empty answer text, and whose
payload texts never contain the character `<` (otherwise the payloads
themselves can forge marker substrings, see the counterexample), the
concatenation of all emitted event texts contains exactly one occurrence
of `"<think>"` and exactly one of `"</think>"`; moreover it decomposes as
`A ++ "<think>" ++ r ++ M ++ "</think>" ++ a ++ T` where `r` is the first
reasoning text and `a` the first answer text after reasoning began (both
non-empty), so `"<think>"` immediately precedes the first reasoning
character, `"</think>"` immediately precedes the first answer character
after reasoning began, and (the `<`-freeness of `A`, `r ++ M` and
`a ++ T` forcing every marker occurrence to start at one of the two
inserted markers) the two markers occur in that order. -/
theorem C1_markers_unique (cs : List ChatCompletionChunk) (r a : String)
    (hfree : ∀ c ∈ cs, ∀ s ∈ chunkTexts c, ('<' : Char) ∉ s.data)
    (hr : firstReasoning cs = some r)
    (ha : firstAnswerAfterReasoning cs = some a) :
    countOccs thinkTag (outputChars cs) = 1 ∧
    countOccs closeTag (outputChars cs) = 1 ∧
    ¬(r = "") ∧ ¬(a = "") ∧
    ∃ A M T, outputChars cs = A ++ (thinkTag ++ ((r.data ++ M) ++ (closeTag ++ (a.data ++ T)))) ∧
      ('<' : Char) ∉ A ∧ ('<' : Char) ∉ r.data ++ M ∧ ('<' : Char) ∉ a.data ++ T := by
  obtain ⟨preL, midL, postL, hsplit, hmem, ⟨cr, hcrmem, hrmem⟩, ⟨ca, hcamem, hamem⟩⟩ :=
    eventTexts_marker_split cs r a hr ha
  have hA : Char.ofNat 60 ∉ concatChars preL :=
    free_concat preL (fun s hs => by
      obtain ⟨c, hc, hsc⟩ := hmem s (Or.inl hs)
      exact lt_char_eq ▸ hfree c hc s hsc)
  have hMfree : Char.ofNat 60 ∉ r.data ++ concatChars midL := by
    intro hmm
    rcases List.mem_append.mp hmm with h1 | h2
    · exact (lt_char_eq ▸ hfree cr hcrmem r hrmem) h1
    · exact free_concat midL (fun s hs => by
        obtain ⟨c, hc, hsc⟩ := hmem s (Or.inr (Or.inl hs))
        exact lt_char_eq ▸ hfree c hc s hsc) h2
  have hTfree : Char.ofNat 60 ∉ a.data ++ concatChars postL := by
    intro hmm
    rcases List.mem_append.mp hmm with h1 | h2
    · exact (lt_char_eq ▸ hfree ca hcamem a hamem) h1
    · exact free_concat postL (fun s hs => by
        obtain ⟨c, hc, hsc⟩ := hmem s (Or.inr (Or.inr hs))
        exact lt_char_eq ▸ hfree c hc s hsc) h2
  have hout : outputChars cs =
      concatChars preL ++ (thinkTag ++ ((r.data ++ concatChars midL) ++
        (closeTag ++ (a.data ++ concatChars postL)))) := by
    rw [outputChars, hsplit, concatChars_append, concatChars, concatChars_append, concatChars,
      data_append, data_append]
    simp only [thinkTag, closeTag, List.append_assoc]
  have hcounts := marker_counts (concatChars preL) (r.data ++ concatChars midL)
    (a.data ++ concatChars postL) hA hMfree hTfree
  refine ⟨?_, ?_, firstReasoning_ne_empty cs r hr, firstAAR_ne_empty cs a ha,
    concatChars preL, concatChars midL, concatChars postL, hout,
    lt_char_eq ▸ hA, lt_char_eq ▸ hMfree, lt_char_eq ▸ hTfree⟩
  · rw [hout]
    exact hcounts.1
  · rw [hout]
    exact hcounts.2

/-- Claim C1, counterexample to the literal statement: the fragment
sequence `[reasoning "<think>", answer "c"]` satisfies the claim's
hypothesis (a non-empty reasoning text eventually followed by a non-empty
answer text), yet the concatenated output
`"<think><think></think>c"` contains the substring `"<think>"` at two
positions, not exactly one: the tagger inserts its marker in front of a
payload that already contains the marker. -/
theorem C1_counterexample :
    firstReasoning [rChunk "<think>", aChunk "c"] = some "<think>" ∧
    firstAnswerAfterReasoning [rChunk "<think>", aChunk "c"] = some "c" ∧
    countOccs thinkTag (outputChars [rChunk "<think>", aChunk "c"]) = 2 := by decide

/-- Witness for C1: the amended theorem applied to the concrete stream
`[reasoning "a", answer "c"]`, whose output is `"<think>a</think>c"`. -/
theorem C1_markers_unique_witness :
    (∀ c ∈ [rChunk "a", aChunk "c"], ∀ s ∈ chunkTexts c, ('<' : Char) ∉ s.data) ∧
    firstReasoning [rChunk "a", aChunk "c"] = some "a" ∧
    firstAnswerAfterReasoning [rChunk "a", aChunk "c"] = some "c" ∧
    (countOccs thinkTag (outputChars [rChunk "a", aChunk "c"]) = 1 ∧
     countOccs closeTag (outputChars [rChunk "a", aChunk "c"]) = 1 ∧
     ¬("a" = "") ∧ ¬("c" = "") ∧
     ∃ A M T, outputChars [rChunk "a", aChunk "c"] =
         A ++ (thinkTag ++ ((("a" : String).data ++ M) ++
           (closeTag ++ (("c" : String).data ++ T)))) ∧
       ('<' : Char) ∉ A ∧ ('<' : Char) ∉ ("a" : String).data ++ M ∧
       ('<' : Char) ∉ ("c" : String).data ++ T) :=
  ⟨by decide, by decide, by decide,
   C1_markers_unique [rChunk "a", aChunk "c"] "a" "c" (by decide) (by decide) (by decide)⟩

/-- Claim C3: on the fragment sequence
`[{reasoning:"a"}, {reasoning:"b"}, {answer:"c"}]` the stream yields
exactly the three events `["<think>a", "b", "</think>c"]`, in order. -/
theorem C3_scenario1 :
    (response_stream [rChunk "a", rChunk "b", aChunk "c"]).2 =
      [⟨"<think>a"⟩, ⟨"b"⟩, ⟨"</think>c"⟩] := by decide

/-- Claim C6: empty-string fields behave exactly like absent fields — the
processing of a fragment is unchanged when a `some ""` field is replaced
by `none`, a fragment whose fields are both empty produces no event and
leaves the state (hence the phase) untouched, and the scenario
`[{reasoning:""}, {answer:"x"}]` yields exactly `["x"]` with no marker. -/
theorem C6_empty_equals_absent (st : StreamState) (ro co : Option String) (tl : List Choice)
    (u : Option String) :
    processChunk st ⟨⟨⟨some "", co⟩⟩ :: tl, u⟩ = processChunk st ⟨⟨⟨none, co⟩⟩ :: tl, u⟩ ∧
    processChunk st ⟨⟨⟨ro, some ""⟩⟩ :: tl, u⟩ = processChunk st ⟨⟨⟨ro, none⟩⟩ :: tl, u⟩ ∧
    processChunk st ⟨⟨⟨some "", some ""⟩⟩ :: tl, u⟩ = (st, []) ∧
    eventTexts [⟨[⟨⟨some "", none⟩⟩], none⟩, aChunk "x"] = ["x"] :=
  ⟨rfl, rfl, rfl, by decide⟩

/-- Claim C7: a pure usage/terminal fragment (no choice content) produces
zero events and leaves the state untouched; the usage payload never
influences processing (it is only printed by the source, a side
observation outside the returned data), and the scenario `[{usage:...}]`
yields zero events. -/
theorem C7_usage_fragment (st : StreamState) (choices : List Choice) (u1 u2 : Option String) :
    processChunk st ⟨choices, u1⟩ = processChunk st ⟨choices, u2⟩ ∧
    processChunk st ⟨[], u1⟩ = (st, []) ∧
    response_stream [⟨[], u1⟩] = (initState, []) :=
  ⟨rfl, rfl, rfl⟩

/-- Claim C8: processing a fragment is total — the fallible model of the
loop body never hits its error branch (the only indexing runs strictly
under the non-emptiness guard) and always returns exactly what the total
embedding computes, for every state and every fragment shape. -/
theorem C8_never_fails (st : StreamState) (chunk : ChatCompletionChunk) :
    processChunkE st chunk = some (processChunk st chunk) := by
  obtain ⟨choices, u⟩ := chunk
  cases choices with
  | nil => rfl
  | cons ch tl => rfl

/-- Reasoning-bearing events are a sublist of all emitted events. -/
lemma reasoningEvents_sublist (cs : List ChatCompletionChunk) : ∀ s,
    List.Sublist (reasoningEventsFrom s cs) (eventsFrom s cs) := by
  induction cs with
  | nil => intro s; simp [reasoningEventsFrom, eventsFrom]
  | cons c cs ih =>
    intro s
    rw [reasoningEventsFrom, eventsFrom, chunkEvents]
    exact List.Sublist.append (List.sublist_append_left _ _) (ih _)

/-- Answer-bearing events are a sublist of all emitted events. -/
lemma answerEvents_sublist (cs : List ChatCompletionChunk) : ∀ s,
    List.Sublist (answerEventsFrom s cs) (eventsFrom s cs) := by
  induction cs with
  | nil => intro s; simp [answerEventsFrom, eventsFrom]
  | cons c cs ih =>
    intro s
    rw [answerEventsFrom, eventsFrom, chunkEvents]
    exact List.Sublist.append (List.sublist_append_right _ _) (ih _)

/-- Claim C10: after the whole stream, the stored
`response_reasoning_content` equals the text of the most recent
reasoning-bearing emitted event (with its `"<think>"` prefix when it was
the first one), or stays `none` when no reasoning-bearing event was
emitted — the latest chunk only, not a concatenation; and those
reasoning-bearing texts do occur among the emitted events, in order. -/
theorem C10_stores_latest_reasoning (cs : List ChatCompletionChunk) :
    (stateAfter cs).stream_data.response_reasoning_content =
      (reasoningEventsFrom "" cs).getLast? ∧
    List.Sublist (reasoningEventsFrom "" cs) (eventTexts cs) := by
  constructor
  · have h := run_reasoning_field cs initState
    rw [stateAfter, response_stream, h]
    rw [show initState.stream_data.response_reasoning_content = none from rfl, optOr_none_right]
    rfl
  · rw [eventTexts_eq]
    exact reasoningEvents_sublist cs ""

/-- Claim C2, counterexample to the literal statement: after
`[{reasoning:"a"}, {reasoning:"b"}]` the reasoning-bearing events are
`["<think>a", "b"]`, whose concatenation is `"<think>ab"`, but the stored
reasoning field is just `"b"`: the source assigns (`=`), it does not
accumulate (`+=`), so the stored value is not the concatenation of the
emitted reasoning texts. -/
theorem C2_counterexample :
    reasoningEventsFrom "" [rChunk "a", rChunk "b"] = ["<think>a", "b"] ∧
    concatChars (reasoningEventsFrom "" [rChunk "a", rChunk "b"]) = "<think>ab".data ∧
    (stateAfter [rChunk "a", rChunk "b"]).stream_data.response_reasoning_content = some "b" ∧
    ¬((stateAfter [rChunk "a", rChunk "b"]).stream_data.response_reasoning_content =
        some (String.mk (concatChars (reasoningEventsFrom "" [rChunk "a", rChunk "b"])))) := by
  decide

/-- Claim C2, amended: after any finite fragment sequence the accumulated
answer string `response_content` equals the concatenation, in order, of
the texts of every emitted answer-bearing event (including the inserted
`"</think>"` prefix on the transition event); the reasoning field is not
an accumulator — it holds exactly the text of the most recent
reasoning-bearing event (with the opening delimiter when it was the
first), or `none` when there was none.  Both event families are genuinely
among the emitted events, in order. -/
theorem C2_accumulators (cs : List ChatCompletionChunk) :
    (stateAfter cs).stream_data.response_content.data =
      concatChars (answerEventsFrom "" cs) ∧
    (stateAfter cs).stream_data.response_reasoning_content =
      (reasoningEventsFrom "" cs).getLast? ∧
    List.Sublist (answerEventsFrom "" cs) (eventTexts cs) ∧
    List.Sublist (reasoningEventsFrom "" cs) (eventTexts cs) := by
  refine ⟨?_, ?_, ?_, ?_⟩
  · have h := run_content_field cs initState
    rw [stateAfter, response_stream, h]
    rw [show initState.stream_data.response_content.data = [] from rfl, List.nil_append]
    rfl
  · have h := run_reasoning_field cs initState
    rw [stateAfter, response_stream, h]
    rw [show initState.stream_data.response_reasoning_content = none from rfl, optOr_none_right]
    rfl
  · rw [eventTexts_eq]
    exact answerEvents_sublist cs ""
  · rw [eventTexts_eq]
    exact reasoningEvents_sublist cs ""

/-- Claim C9: answer-only fragments never advance the phase out of the
initial status, so a reasoning fragment arriving after any number of
reasoning-free fragments still gets the `"<think>"` marker prepended to
its emitted text. -/
theorem C9_answer_first_still_marks (cs : List ChatCompletionChunk) (c : ChatCompletionChunk)
    (r : String) (hnr : ∀ d ∈ cs, chunkReasoning d = none) (hc : chunkReasoning c = some r) :
    (stateAfter cs).status = "" ∧
    (processChunk (stateAfter cs) c).2.head? = some ⟨"<think>" ++ r⟩ := by
  have hst : (stateAfter cs).status = "" := by
    rw [statusAfter_eq]
    exact (eventsFrom_empty_noreason cs hnr).2
  refine ⟨hst, ?_⟩
  rw [(processChunk_spec (stateAfter cs) c).2.1, hst]
  unfold chunkEvents chunkReasoningEvents
  rw [hc]
  simp

/-- Witness for C9: the fragment `{answer:"hello"}` leaves the status at
`""`, and a following `{reasoning:"z"}` fragment is emitted as
`"<think>z"`. -/
theorem C9_answer_first_still_marks_witness :
    (∀ d ∈ [aChunk "hello"], chunkReasoning d = none) ∧
    chunkReasoning (rChunk "z") = some "z" ∧
    ((stateAfter [aChunk "hello"]).status = "" ∧
     (processChunk (stateAfter [aChunk "hello"]) (rChunk "z")).2.head? =
       some ⟨"<think>" ++ "z"⟩) :=
  ⟨by decide, by decide,
   C9_answer_first_still_marks [aChunk "hello"] (rChunk "z") "z" (by decide) (by decide)⟩

/-- Claim C5, counterexample to the literal statement: the answer-only
sequence `[{answer:"<think>"}]` contains no reasoning fragment, yet its
concatenated output `"<think>"` does contain the substring `"<think>"` —
the payload itself forges the marker, so "the concatenated output contains
neither marker" is false as stated. -/
theorem C5_counterexample :
    (∀ c ∈ [aChunk "<think>"], chunkReasoning c = none) ∧
    ¬(countOccs thinkTag (outputChars [aChunk "<think>"]) = 0) := by decide

/-- Claim C5, amended: if no fragment ever carries non-empty reasoning
text, every answer text is emitted unmodified (the events are exactly the
raw payloads, so no marker is ever inserted); in particular
`[{answer:"hello"}]` yields exactly `["hello"]`; and whenever the payloads
themselves are free of the character `<`, the concatenated output contains
no occurrence of `"<think>"` or `"</think>"` at all. -/
theorem C5_no_reasoning_no_markers (cs : List ChatCompletionChunk)
    (hnr : ∀ c ∈ cs, chunkReasoning c = none) :
    eventTexts cs = plainTexts cs ∧
    eventTexts [aChunk "hello"] = ["hello"] ∧
    ((∀ c ∈ cs, ∀ s ∈ chunkTexts c, ('<' : Char) ∉ s.data) →
      countOccs thinkTag (outputChars cs) = 0 ∧
      countOccs closeTag (outputChars cs) = 0) := by
  have hplain : eventTexts cs = plainTexts cs := by
    rw [eventTexts_eq]
    exact (eventsFrom_empty_noreason cs hnr).1
  refine ⟨hplain, by decide, ?_⟩
  intro hfree
  have hout : Char.ofNat 60 ∉ outputChars cs := by
    rw [outputChars, hplain]
    exact free_concat (plainTexts cs) (fun s hs => by
      obtain ⟨c, hc, hsc⟩ := mem_plainTexts s cs hs
      exact lt_char_eq ▸ hfree c hc s hsc)
  constructor
  · rw [thinkTag_eq]
    exact countOccs_free _ _ hout
  · rw [closeTag_eq]
    exact countOccs_free _ _ hout

/-- Witness for C5: the answer-only stream `[{answer:"hello"}]` emits
exactly `["hello"]` and its output contains no marker. -/
theorem C5_no_reasoning_no_markers_witness :
    (∀ c ∈ [aChunk "hello"], chunkReasoning c = none) ∧
    (eventTexts [aChunk "hello"] = plainTexts [aChunk "hello"] ∧
     eventTexts [aChunk "hello"] = ["hello"] ∧
     ((∀ c ∈ [aChunk "hello"], ∀ s ∈ chunkTexts c, ('<' : Char) ∉ s.data) →
       countOccs thinkTag (outputChars [aChunk "hello"]) = 0 ∧
       countOccs closeTag (outputChars [aChunk "hello"]) = 0)) :=
  ⟨by decide, C5_no_reasoning_no_markers [aChunk "hello"] (by decide)⟩

lemma statusStepR_valid (s : String) (c : ChatCompletionChunk) (h : validStatus s) :
    validStatus (statusStepR s c) := by
  unfold statusStepR
  cases chunkReasoning c with
  | none => exact h
  | some r =>
    by_cases hs : s = ""
    · rw [if_pos hs]
      exact Or.inr (Or.inl rfl)
    · rw [if_neg hs]
      exact h

lemma statusStep_valid (s : String) (c : ChatCompletionChunk) (h : validStatus s) :
    validStatus (statusStep s c) := by
  unfold statusStep
  cases chunkAnswer c with
  | none => exact statusStepR_valid s c h
  | some a =>
    by_cases hs : statusStepR s c = "think"
    · rw [if_pos hs]
      exact Or.inr (Or.inr rfl)
    · rw [if_neg hs]
      exact statusStepR_valid s c h

lemma statusFrom_valid (cs : List ChatCompletionChunk) : ∀ s, validStatus s →
    validStatus (statusFrom s cs) := by
  induction cs with
  | nil => intro s h; exact h
  | cons c cs ih =>
    intro s h
    rw [statusFrom]
    exact ih _ (statusStep_valid s c h)

lemma statusRank_stepR (s : String) (c : ChatCompletionChunk) :
    statusRank s ≤ statusRank (statusStepR s c) := by
  unfold statusStepR
  cases chunkReasoning c with
  | none => exact Nat.le_refl _
  | some r =>
    by_cases hs : s = ""
    · rw [if_pos hs, hs]
      simp [statusRank]
    · rw [if_neg hs]

lemma statusRank_step (s : String) (c : ChatCompletionChunk) :
    statusRank s ≤ statusRank (statusStep s c) := by
  refine Nat.le_trans (statusRank_stepR s c) ?_
  unfold statusStep
  cases chunkAnswer c with
  | none => exact Nat.le_refl _
  | some a =>
    by_cases hs : statusStepR s c = "think"
    · rw [if_pos hs, hs]
      simp [statusRank]
    · rw [if_neg hs]

/-- Claim C4: the phase is monotonic.  After any prefix, one more fragment
changes the status only through the two legal transitions — the reasoning
block moves `""` to `"think"` exactly on a fragment bearing non-empty
reasoning text, the answer block moves `"think"` to `"answer"` exactly on
non-empty answer text — the rank never decreases, and once in `"answer"` a
later reasoning-bearing fragment is still emitted (its raw text, with no
re-inserted opening marker) and still recorded in the reasoning field,
while the status stays `"answer"`. -/
theorem C4_phase_monotonic (cs : List ChatCompletionChunk) (c : ChatCompletionChunk) :
    (stateAfter (cs ++ [c])).status = statusStep (stateAfter cs).status c ∧
    (statusStepR (stateAfter cs).status c = (stateAfter cs).status ∨
      ((stateAfter cs).status = "" ∧ (chunkReasoning c).isSome = true ∧
        statusStepR (stateAfter cs).status c = "think")) ∧
    (statusStep (stateAfter cs).status c = statusStepR (stateAfter cs).status c ∨
      (statusStepR (stateAfter cs).status c = "think" ∧ (chunkAnswer c).isSome = true ∧
        statusStep (stateAfter cs).status c = "answer")) ∧
    statusRank (stateAfter cs).status ≤ statusRank (stateAfter (cs ++ [c])).status ∧
    ((stateAfter cs).status = "answer" → ∀ r, chunkReasoning c = some r →
      (stateAfter (cs ++ [c])).status = "answer" ∧
      (processChunk (stateAfter cs) c).2.head? = some ⟨r⟩ ∧
      (processChunk (stateAfter cs) c).1.stream_data.response_reasoning_content = some r) := by
  have hsplit : (stateAfter (cs ++ [c])).status = statusStep (stateAfter cs).status c := by
    rw [stateAfter, response_stream, run_append]
    show (run (run initState cs).1 [c]).1.status = _
    rw [run, run]
    exact (processChunk_spec (run initState cs).1 c).1
  refine ⟨hsplit, ?_, ?_, ?_, ?_⟩
  · unfold statusStepR
    cases chunkReasoning c with
    | none => exact Or.inl rfl
    | some r =>
      by_cases hs : (stateAfter cs).status = ""
      · rw [if_pos hs]
        exact Or.inr ⟨hs, rfl, rfl⟩
      · rw [if_neg hs]
        exact Or.inl rfl
  · unfold statusStep
    cases chunkAnswer c with
    | none => exact Or.inl rfl
    | some a =>
      by_cases hs : statusStepR (stateAfter cs).status c = "think"
      · rw [if_pos hs]
        exact Or.inr ⟨hs, rfl, rfl⟩
      · rw [if_neg hs]
        exact Or.inl rfl
  · rw [hsplit]
    exact statusRank_step _ c
  · intro hans r hcr
    have hspec := processChunk_spec (stateAfter cs) c
    have hstepR : statusStepR (stateAfter cs).status c = "answer" := by
      unfold statusStepR
      rw [hcr, hans]
      simp
    have hstep : statusStep (stateAfter cs).status c = "answer" := by
      unfold statusStep
      cases chunkAnswer c with
      | none => exact hstepR
      | some a =>
        rw [hstepR]
        simp
    refine ⟨by rw [hsplit, hstep], ?_, ?_⟩
    · rw [hspec.2.1]
      unfold chunkEvents chunkReasoningEvents
      rw [hcr, hans]
      simp
    · rw [hspec.2.2.1]
      unfold chunkReasoningEvents
      rw [hcr, hans]
      simp [optOr]

/-- Witness for C4: after `[{reasoning:"x"}, {answer:"y"}]` the status is
`"answer"`; a further `{reasoning:"z"}` fragment keeps the status at
`"answer"`, is emitted as plain `"z"` (no re-inserted marker) and is
recorded in the reasoning field. -/
theorem C4_phase_monotonic_witness :
    (stateAfter [rChunk "x", aChunk "y"]).status = "answer" ∧
    ((stateAfter ([rChunk "x", aChunk "y"] ++ [rChunk "z"])).status = "answer" ∧
     (processChunk (stateAfter [rChunk "x", aChunk "y"]) (rChunk "z")).2.head? = some ⟨"z"⟩ ∧
     (processChunk (stateAfter [rChunk "x", aChunk "y"])
        (rChunk "z")).1.stream_data.response_reasoning_content = some "z") :=
  ⟨by decide,
   (C4_phase_monotonic [rChunk "x", aChunk "y"] (rChunk "z")).2.2.2.2 (by decide) "z" (by decide)⟩
